import Mathlib

/-!
Verification of the flux dataflow-to-Go code generator (gordon-go).

This file gives a shallow embedding of the code generator's core data
model and operations — the index node's type propagation (index.go), the
loop node's binding outputs (loop.go), the writer's name allocator, the
emission of imports and of unconnected inputs (writer.go and its older
variant), and the type hasher (typemap.go) — and proves or refutes the
specified properties about them.

Machine integers are modelled as `Nat` with explicit reduction modulo
2^32 where the Go code uses `uint32`.
-/

namespace Flux

/-! ## Type model for the flux graph layer

`FluxType` mirrors the `types.Type` variants the flux code inspects
(`code.google.com/p/go.exp/go/types` in index.go, the structurally
identical `gordon-go/go/types` in writer.go), plus flux's own wildcard
placeholder `generic{}`.  `basic 2` stands for `types.Typ[types.Int]`
and `basic 1` for `types.Typ[types.Bool]`; the kind number itself is
never inspected by the embedded code. -/

inductive FluxType : Type where
  | basic (kind : Nat)
  | named (underlying : FluxType)
  | pointer (elem : FluxType)
  | array (elem : FluxType)
  | slice (elem : FluxType)
  | map (key elem : FluxType)
  | chan (elem : FluxType)
  | signature
  | iface
  | strct
  | generic
deriving DecidableEq, Repr

/-- `types.Typ[types.Int]` (index.go line 48). -/
def intT : FluxType := .basic 2

/-- `types.Typ[types.Bool]` (index.go line 102). -/
def boolT : FluxType := .basic 1

/-- Modelled from the spec: the helper `indirect` (called by index.go and
writer.go but not itself under src/) unwraps one level of pointer and
reports whether it did so. -/
def indirect : FluxType → FluxType × Bool
  | .pointer e => (e, true)
  | t => (t, false)

/-- Modelled from the spec: the helper `underlying` (called by writer.go
but not itself under src/) maps a named type to its stored underlying
type, like `go/types`' `Underlying`; an underlying type is never itself
named. -/
def underlyingT : FluxType → FluxType
  | .named u => u
  | t => t

/-- The inline named-type unwrap of index.go lines 44-47
(`if n, ok := t.(*types.NamedType); ok { u = n.Underlying }`). -/
def unwrapNamed : FluxType → FluxType
  | .named u => u
  | t => t

/-! ## Index node (index.go)

The state of an `indexNode` relevant to `updateInputType`: the write
flag `set`, the connection lists of the `x` (container), `key` and
`inVal` input ports (each connection carrying the type of its source
port, or `none` when the connection's `src` is nil), and the current
`ok` output port (present or not, with the ids of its attached
connections) together with the ids of the connections held by the
enclosing block. -/

structure IndexState where
  set : Bool
  xConns : List (Option FluxType)
  keyConns : List (Option FluxType)
  inValConns : List (Option FluxType)
  okPresent : Bool
  okConns : List Nat
  blkConns : List Nat
deriving DecidableEq, Repr

/-- index.go lines 38-78: derive the container, key and element types
(`none` meaning the Go nil type, i.e. underivable) and the
`addressable` flag.  Mirrors the source: when the container input has a
connection with a non-nil source, the types come from the container's
type (with the array/slice/map cases and the pointer promotion);
otherwise the key and (in write mode) the element fall back to the key
and write-value connections. -/
def indexDerived (st : IndexState) :
    Option FluxType × Option FluxType × Option FluxType × Bool :=
  match st.xConns with
  | some T :: _ =>
    let tp := indirect T
    let u := unwrapNamed tp.1
    match u with
    | .array e =>
      if tp.2 && !st.set then (some T, some intT, some (.pointer e), true)
      else (some tp.1, some intT, some e, false)
    | .slice e =>
      if !st.set then (some tp.1, some intT, some (.pointer e), true)
      else (some tp.1, some intT, some e, false)
    | .map k e => (some tp.1, some k, some e, false)
    | _ => (some tp.1, some intT, none, false)
  | none :: _ => (none, none, none, false)
  | [] =>
    let key : Option FluxType :=
      match st.keyConns with
      | some k :: _ => some k
      | _ => none
    let elt : Option FluxType :=
      if st.set then
        match st.inValConns with
        | some e :: _ => some e
        | _ => none
      else none
    (none, key, elt, false)

/-- The result of `indexNode.updateInputType`: the types assigned to the
`x` and `key` inputs and to the value port, the `addressable` flag, and
the resulting `ok` port state. -/
structure IndexResult where
  xType : FluxType
  keyType : FluxType
  eltType : FluxType
  addressable : Bool
  okPresent : Bool
  okConns : List Nat
  blkConns : List Nat
deriving DecidableEq, Repr

/-- Whether a type is a map type (`case *types.Map` of the type switch at
index.go lines 90-104). -/
def isMapCons : FluxType → Bool
  | .map _ _ => true
  | _ => false

/-- index.go lines 36-115 (`indexNode.updateInputType`): derive the
types, fall back to the wildcard `generic{}` for any type still nil
(lines 79-87), and in read mode add the `ok` output when the container
type is a map, or remove it — together with all connections attached to
it — when it is not (lines 89-105).  In write mode the `ok` logic is
skipped. -/
def indexUpdate (st : IndexState) : IndexResult :=
  let d := indexDerived st
  let t := d.1.getD .generic
  let key := d.2.1.getD .generic
  let elt := d.2.2.1.getD .generic
  let base : IndexResult :=
    { xType := t, keyType := key, eltType := elt, addressable := d.2.2.2
      okPresent := st.okPresent, okConns := st.okConns, blkConns := st.blkConns }
  if !st.set then
    if isMapCons t then
      { base with
        okPresent := true
        okConns := (if st.okPresent then st.okConns else []) }
    else if st.okPresent then
      { base with
        okPresent := false
        okConns := ([] : List Nat)
        blkConns := st.blkConns.filter (fun c => c ∉ st.okConns) }
    else base
  else base

/-- index.go lines 15-34 (`newIndexNode`): which ports a fresh index node
owns.  In write mode (`set`) the node gets an `inVal` input and no value
output; in read mode it gets an `outVal` output and no `inVal`. -/
structure IndexPorts where
  hasX : Bool
  hasKey : Bool
  hasInVal : Bool
  hasOutVal : Bool
deriving DecidableEq, Repr

def newIndexPorts (set : Bool) : IndexPorts :=
  { hasX := true, hasKey := true, hasInVal := set, hasOutVal := !set }

/-! ## Loop node (loop.go) -/

/-- The type variants of the gui layer's type system inspected by
`loopNode.updateInputType` (loop.go lines 53-74); the remaining variants
(`PointerType`, `FuncType`, `InterfaceType`, `StructType`) fall to the
switch's default case. -/
inductive GuiType : Type where
  | namedT
  | arrayT
  | sliceT
  | mapT
  | chanT
  | pointerT
  | funcT
  | interfaceT
  | structT
deriving DecidableEq, Repr

/-- loop.go lines 53-65 (`loopNode.updateInputType`): given the input
type (`none` = Go nil) and the current number of binding outputs of the
inner block's `inputsNode`, the new number of binding outputs.  For
nil, `*NamedType` and `*ChanType` a second output is removed; for
`*ArrayType`, `*SliceType` and `*MapType` a second output is added;
other variants leave the count unchanged. -/
def loopUpdateInputType (t : Option GuiType) (outs : Nat) : Nat :=
  match t with
  | none | some .namedT | some .chanT => if outs = 2 then 1 else outs
  | some .arrayT | some .sliceT | some .mapT => if outs = 1 then 2 else outs
  | _ => outs

/-! ## Name allocator (writer.go lines 561-571, identically part_002 lines 476-486)

`writer.names` is a Go `map[string]int`; it is modelled as an
association list looked up by first match.  `mapSet` on a present key
replaces its value in place, so the key list is unchanged; on an absent
key it appends. -/

def mapGet (m : List (String × Nat)) (s : String) : Option Nat :=
  match m with
  | [] => none
  | (k, v) :: r => if k = s then some v else mapGet r s

def mapSet (m : List (String × Nat)) (s : String) (v : Nat) : List (String × Nat) :=
  match m with
  | [] => [(s, v)]
  | (k, w) :: r => if k = s then (s, v) :: r else (k, w) :: mapSet r s v

/-- The set of occupied names: the keys of `writer.names`. -/
def keys : List (String × Nat) → List String
  | [] => []
  | p :: r => p.1 :: keys r

/-- The length of the longest occupied name; the termination measure of
the allocator's recursion. -/
def maxKeyLen : List (String × Nat) → Nat
  | [] => 0
  | p :: r => max p.1.length (maxKeyLen r)

/-- The collision recursion of `writer.name` (writer.go lines 565-570):
`if i, ok := w.names[s]; ok { w.names[s]++; return w.name(s + strconv.Itoa(i)) };
w.names[s] = 2; return s`, with `strconv.Itoa` modelled by `Nat.repr`.
Total by well-founded recursion: each recursive call strictly lengthens
the candidate while the key set of `names` is unchanged (only a value is
incremented), so the candidate eventually outgrows every occupied
name. -/
def nameAux (m : List (String × Nat)) (s : String) : String × List (String × Nat) :=
  match h : mapGet m s with
  | some i => nameAux (mapSet m s (i + 1)) (s ++ Nat.repr i)
  | none => (s, mapSet m s 2)
termination_by (maxKeyLen m + 1) - s.length
decreasing_by
  have hmem : s ∈ keys m := by
    clear * - h
    induction m with
    | nil => simp [mapGet] at h
    | cons p r ih =>
      obtain ⟨k, v⟩ := p
      simp only [mapGet] at h
      show s ∈ k :: keys r
      by_cases hk : k = s
      · subst hk
        exact List.mem_cons_self _ _
      · rw [if_neg hk] at h
        exact List.mem_cons_of_mem _ (ih h)
  have hlen : ∀ (m' : List (String × Nat)), s ∈ keys m' → s.length ≤ maxKeyLen m' := by
    clear * -
    intro m'
    induction m' with
    | nil => intro hs; simp [keys] at hs
    | cons p r ih =>
      intro hs
      obtain ⟨k, v⟩ := p
      rcases List.mem_cons.mp hs with h1 | h1
      · subst h1
        exact le_max_left _ _
      · exact le_trans (ih h1) (le_max_right _ _)
  have hset : ∀ (m' : List (String × Nat)) (v : Nat), s ∈ keys m' →
      maxKeyLen (mapSet m' s v) = maxKeyLen m' := by
    clear * -
    intro m' v
    induction m' with
    | nil => intro hs; simp [keys] at hs
    | cons p r ih =>
      intro hs
      obtain ⟨k, w⟩ := p
      by_cases hk : k = s
      · subst hk
        simp [mapSet, maxKeyLen]
      · rcases List.mem_cons.mp hs with h1 | h1
        · exact absurd h1.symm hk
        · show maxKeyLen (if k = s then _ else (k, w) :: mapSet r s v) = _
          rw [if_neg hk]
          show max k.length (maxKeyLen (mapSet r s v)) = max k.length (maxKeyLen r)
          rw [ih h1]
  have hrepr : 0 < (Nat.repr i).length := by
    clear * -
    have hcore : ∀ (f n : Nat) (l : List Char),
        l.length ≤ (Nat.toDigitsCore 10 f n l).length := by
      intro f
      induction f with
      | zero => intro n l; simp [Nat.toDigitsCore]
      | succ f ih =>
        intro n l
        simp only [Nat.toDigitsCore]
        split
        · simp
        · exact le_trans (by simp) (ih _ _)
    show 0 < (Nat.toDigits 10 i).asString.length
    have hlen2 : (Nat.toDigits 10 i).asString.length = (Nat.toDigits 10 i).length := by
      simp [List.asString, String.length]
    rw [hlen2]
    unfold Nat.toDigits
    simp only [Nat.toDigitsCore]
    split
    · simp
    · calc 0 < ([Nat.digitChar (i % 10)] : List Char).length := by simp
        _ ≤ _ := hcore _ _ _
  have h1 : maxKeyLen (mapSet m s (i + 1)) = maxKeyLen m := hset m (i + 1) hmem
  have h2 : s.length ≤ maxKeyLen m := hlen m hmem
  have h3 : s.length < (s ++ Nat.repr i).length := by
    rw [String.length_append]
    omega
  omega

/-- writer.go lines 562-564: an empty or `_` candidate is replaced by
the fixed default base `"x"`. -/
def normName (s : String) : String := if s = "" ∨ s = "_" then "x" else s

/-- `writer.name` (writer.go lines 561-571).  The source normalizes the
candidate at every entry, including recursive re-entries; since the
recursive candidate `s + strconv.Itoa(i)` is never empty or `"_"`
(it extends a nonempty `s`), re-entry normalization is the identity and
the normalization is factored in front of the recursion. -/
def wname (m : List (String × Nat)) (s : String) : String × List (String × Nat) :=
  nameAux m (normName s)

/-- One emission session: allocate a name for each candidate in order,
threading the `names` map (as `saveFunc`/`writer.block` do via repeated
`w.name` calls). -/
def allocList (m : List (String × Nat)) : List String → List String × List (String × Nat)
  | [] => ([], m)
  | s :: rest =>
    let r := wname m s
    let rs := allocList r.2 rest
    (r.1 :: rs.1, rs.2)

/-! ## Import emission (writer.go lines 131-144)

`writer.imports` iterates the Go map `w.pkgNames` with `for p, id :=
range w.pkgNames`; Go map iteration order is unspecified, so the
emission is modelled as a function of the iteration sequence of the
map's entries. -/

structure GoPkg where
  name : String
  path : String
deriving DecidableEq, Repr

/-- `strconv.Quote` restricted to package paths (which contain no
characters needing escapes). -/
def quoteStr (s : String) : String := "\"" ++ s ++ "\""

/-- writer.go lines 131-144 (`writer.imports`), as a function of the
iteration sequence of `w.pkgNames` (pairs of package and chosen
identifier): nothing when the map is empty, otherwise one line per
entry — a tab, the identifier (followed by a space) when it differs
from the package's name, and the quoted import path. -/
def importsText (entries : List (GoPkg × String)) : String :=
  if entries.isEmpty then ""
  else
    "import (\n" ++
      String.join (entries.map (fun e =>
        "\t" ++ (if e.2 ≠ e.1.name then e.2 ++ " " else "") ++
          quoteStr e.1.path ++ "\n")) ++
      ")\n\n"

/-! ## Scheduler and block emission entry (C1)

The scheduler `block.nodeOrder` is called by both writer variants but
its own code is not under src/; it is modelled from the spec.  Blocks
are projected to scheduling granularity: a list of node ids (in
creation order) plus the dependency edges induced by data connections
whose source node lies in the same block and by sequence connections. -/

structure Blk where
  nodes : List Nat
  edges : List (Nat × Nat)
deriving DecidableEq, Repr

/-- Modelled from the spec: the first node (in creation order) all of
whose predecessors have already been emitted — the spec's stable
tie-break for the topological order. -/
def pickReady (edges : List (Nat × Nat)) (remaining : List Nat) : Option Nat :=
  remaining.find? (fun n => remaining.all (fun m => !(edges.contains (m, n))))

/-- Modelled from the spec: Kahn-style topological ordering; `none` when
no remaining node is ready (a cycle). -/
def topoAux (edges : List (Nat × Nat)) : Nat → List Nat → Option (List Nat)
  | _, [] => some []
  | 0, _ :: _ => none
  | f + 1, remaining =>
    match pickReady edges remaining with
    | none => none
    | some n => (topoAux edges f (remaining.erase n)).map (fun l => n :: l)

/-- Modelled from the spec: the older scheduler `block.nodeOrder`
(part_002 line 191, `order, ok := b.nodeOrder()`): a topological order
of the block's dependency graph, or failure when a cycle remains. -/
def nodeOrderOld (b : Blk) : Option (List Nat) := topoAux b.edges b.nodes.length b.nodes

/-- Modelled from the spec: the current scheduler (writer.go line 206,
`order := b.nodeOrder()`) has no failure path — it assumes acyclicity
unconditionally; on a cyclic block it still returns a list (here the
orderable prefix followed by the remaining nodes in creation order). -/
def topoForce (edges : List (Nat × Nat)) : Nat → List Nat → List Nat
  | _, [] => []
  | 0, remaining => remaining
  | f + 1, remaining =>
    match pickReady edges remaining with
    | none => remaining
    | some n => n :: topoForce edges f (remaining.erase n)

def nodeOrderNew (b : Blk) : List Nat := topoForce b.edges b.nodes.length b.nodes

/-- Block emission projected to scheduling granularity: which failure
report is printed and which nodes get their statements emitted. -/
structure BlockEmit where
  report : Option String
  stmts : List Nat
deriving DecidableEq, Repr

/-- part_002 lines 190-195 (older `writer.block`): on scheduling
failure, print the fixed string `"cyclic!"` and return without emitting
anything for the block; otherwise emit a statement for each node of the
order. -/
def blockOld (b : Blk) : BlockEmit :=
  match nodeOrderOld b with
  | none => { report := some "cyclic!", stmts := [] }
  | some order => { report := none, stmts := order }

/-- writer.go lines 205-206 (current `writer.block`): `order :=
b.nodeOrder()` — there is no failure path; emission proceeds for every
node of the returned order and nothing is ever reported. -/
def blockNew (b : Blk) : BlockEmit :=
  { report := none, stmts := nodeOrderNew b }

/-! ## Unconnected inputs during emission (writer.go lines 232-251, 288-297) -/

/-- writer.go lines 234-249: resolve one input of a node during block
emission.  `bound` is the input's entry in `vars` (its bound name, when
connected and named).  When absent, `isMakeCapacity` — the node is a
`*makeNode` with more than one input and this input is its second, the
capacity — skips the argument outright (lines 237-239,
`continue //ignore unconnected slice capacity`), with no declaration;
otherwise the input's type decides: a nil type skips the argument
(`case nil: continue`), a slice, map or signature underlying type
passes the untyped literal `nil`, and any other type gets a fresh
variable with a zero-value `var` declaration.  The result is `none`
when the argument is skipped, otherwise the argument text and whether a
declaration was emitted.  The function is total: no configuration
aborts. -/
def resolveArg (bound : Option String) (isMakeCapacity : Bool) (t : Option FluxType)
    (fresh : String) : Option (String × Bool) :=
  match bound with
  | some name => some (name, false)
  | none =>
    if isMakeCapacity then none
    else
      match t with
      | none => none
      | some ty =>
        match underlyingT ty with
        | .slice _ => some ("nil", false)
        | .map _ _ => some ("nil", false)
        | .signature => some ("nil", false)
        | _ => some (fresh, true)

/-- writer.go lines 288-292 (`case *deleteNode`): the delete statement
is emitted only when the container input has a connection. -/
def emitDelete (containerConnected : Bool) (a0 a1 : String) : List String :=
  if containerConnected then ["delete(" ++ a0 ++ ", " ++ a1 ++ ")"] else []

/-- writer.go lines 293-297 (`case *lenNode`): the len statement is
emitted only when there are connected results and the container input
has a connection. -/
def emitLen (hasResults containerConnected : Bool) (r a : String) : List String :=
  if hasResults && containerConnected then [r ++ " := len(" ++ a ++ ")"] else []

/-! ## Type hasher (typemap.go)

`GoType` mirrors the `go/types` type structure inspected by
`Hasher.hashFor` (typemap.go lines 243-303).  A struct field carries
its anonymity flag, tag, name and type; an interface method its name
and type; signatures their variadic flag and the types of the param and
result tuples (variable names play no role in either hashing or
identity); a named type is represented by the identity of its type-name
object (`t.Obj`), modelled as a number.  Strings are hashed over their
character codes (the Go code hashes bytes). -/

inductive GoType : Type where
  | basic (kind : Nat)
  | array (len : Nat) (elem : GoType)
  | slice (elem : GoType)
  | strct (fields : List (Bool × String × String × GoType))
  | pointer (elem : GoType)
  | signature (variadic : Bool) (params results : List GoType)
  | iface (methods : List (String × GoType))
  | mapT (key elem : GoType)
  | chanT (dir : Nat) (elem : GoType)
  | named (obj : Nat)
  | tuple (elems : List GoType)
deriving BEq, Repr

/-- `uint32` arithmetic: every operation wraps modulo `2^32`; sums and
products may equivalently be reduced once at the end of each
expression. -/
def M32 : Nat := 2 ^ 32

/-- typemap.go lines 233-240 (`hashString`): the Fowler–Noll–Vo hash. -/
def hashString (s : String) : Nat :=
  s.data.foldl (fun h c => ((h ^^^ c.toNat) * 16777619) % M32) 0

/-! typemap.go lines 243-303 (`Hasher.hashFor`) and 305-313
(`Hasher.hashTuple`).  The accumulation loops over struct fields,
interface methods and tuple members become the sum helpers below; the
Go code wraps at every operation, which agrees with summing in `Nat`
and reducing modulo `2^32` once per case. -/

mutual

def hashFor : GoType → Nat
  | .basic k => k % M32
  | .array n e => (9043 + 2 * (n % M32) + 3 * hashFor e) % M32
  | .slice e => (9049 + 2 * hashFor e) % M32
  | .strct fs => (9059 + hashFields fs) % M32
  | .pointer e => (9067 + 2 * hashFor e) % M32
  | .signature v ps rs =>
    ((if v then (9091 * 8863) % M32 else 9091) + 3 * hashTupleN ps + 5 * hashTupleN rs) % M32
  | .iface ms => (9103 + hashMethods ms) % M32
  | .mapT k e => (9109 + 2 * hashFor k + 3 * hashFor e) % M32
  | .chanT d e => (9127 + 2 * (d % M32) + 3 * hashFor e) % M32
  | .named obj => obj % M32
  | .tuple ts => hashTupleN ts

def hashTupleN (ts : List GoType) : Nat :=
  (9137 + 2 * (ts.length % M32) + hashSum ts) % M32

def hashSum : List GoType → Nat
  | [] => 0
  | t :: ts => 3 * hashFor t + hashSum ts

def hashMethods : List (String × GoType) → Nat
  | [] => 0
  | (nm, t) :: ms => (3 * hashString nm + 5 * hashFor t) + hashMethods ms

def hashFields : List (Bool × String × String × GoType) → Nat
  | [] => 0
  | (anon, tag, nm, t) :: fs =>
    ((if anon then 8861 else 0) + hashString tag + hashString nm + hashFor t) + hashFields fs

end

/-! Modelled from the spec: the Type Resolver's identity relation
`isIdentical` is consumed, not implemented, by this repository; it is
modelled after Go type identity as assumed by typemap.go's case
comments (`see IsIdentical for rationale`): basic types by kind, arrays
by length and element, structs by fields in order (anonymity, tag, name
and type), signatures by variadicity and param/result types (names
irrelevant), interfaces by their method sets with order insignificant
(typemap.go line 282: `Method order is not significant`), maps by key
and element, channels by direction and element, and named types by
their type-name object.  `removeMethod` matches and removes one method
of an interface, so `identicalMethods` compares method multisets. -/

mutual

def identical : GoType → GoType → Bool
  | .basic k, .basic k' => k == k'
  | .array n e, .array n' e' => n == n' && identical e e'
  | .slice e, .slice e' => identical e e'
  | .strct fs, .strct fs' => identicalFields fs fs'
  | .pointer e, .pointer e' => identical e e'
  | .signature v ps rs, .signature v' ps' rs' =>
    (v == v') && identicalList ps ps' && identicalList rs rs'
  | .iface ms, .iface ms' => identicalMethods ms ms'
  | .mapT k e, .mapT k' e' => identical k k' && identical e e'
  | .chanT d e, .chanT d' e' => (d == d') && identical e e'
  | .named o, .named o' => o == o'
  | .tuple ts, .tuple ts' => identicalList ts ts'
  | _, _ => false
termination_by t _ => (sizeOf t, 0)

def identicalList : List GoType → List GoType → Bool
  | [], [] => true
  | t :: ts, t' :: ts' => identical t t' && identicalList ts ts'
  | _, _ => false
termination_by ts _ => (sizeOf ts, 0)

def identicalFields :
    List (Bool × String × String × GoType) → List (Bool × String × String × GoType) → Bool
  | [], [] => true
  | (a, tg, nm, t) :: fs, (a', tg', nm', t') :: fs' =>
    (a == a') && (tg == tg') && (nm == nm') && identical t t' && identicalFields fs fs'
  | _, _ => false
termination_by fs _ => (sizeOf fs, 0)

def removeMethod (nm : String) (t : GoType) :
    List (String × GoType) → Option (List (String × GoType))
  | [] => none
  | (nm', t') :: ms =>
    if nm == nm' && identical t t' then some ms
    else (removeMethod nm t ms).map (fun r => (nm', t') :: r)
termination_by ms => (sizeOf t + 1, sizeOf ms)

def identicalMethods : List (String × GoType) → List (String × GoType) → Bool
  | [], ms' => ms'.isEmpty
  | (nm, t) :: ms, ms' =>
    match removeMethod nm t ms' with
    | some rest => identicalMethods ms rest
    | none => false
termination_by ms _ => (sizeOf ms, 0)

end

/-! Structural equality of type values, used as the memo key test.
Go's `Hasher.memo` is a `map[types.Type]uint32` whose keys are compared
by interface (pointer) equality; pointer-equal types are in particular
structurally equal, so the embedding keys the memo on structural
equality, under which a hit returns exactly the value a fresh
`hashFor` computation would produce. -/

mutual

def beqGo : GoType → GoType → Bool
  | .basic k, .basic k' => k == k'
  | .array n e, .array n' e' => n == n' && beqGo e e'
  | .slice e, .slice e' => beqGo e e'
  | .strct fs, .strct fs' => beqFields fs fs'
  | .pointer e, .pointer e' => beqGo e e'
  | .signature v ps rs, .signature v' ps' rs' =>
    (v == v') && beqList ps ps' && beqList rs rs'
  | .iface ms, .iface ms' => beqMethods ms ms'
  | .mapT k e, .mapT k' e' => beqGo k k' && beqGo e e'
  | .chanT d e, .chanT d' e' => (d == d') && beqGo e e'
  | .named o, .named o' => o == o'
  | .tuple ts, .tuple ts' => beqList ts ts'
  | _, _ => false
termination_by t _ => (sizeOf t, 0)

def beqList : List GoType → List GoType → Bool
  | [], [] => true
  | t :: ts, t' :: ts' => beqGo t t' && beqList ts ts'
  | _, _ => false
termination_by ts _ => (sizeOf ts, 0)

def beqFields :
    List (Bool × String × String × GoType) → List (Bool × String × String × GoType) → Bool
  | [], [] => true
  | (a, tg, nm, t) :: fs, (a', tg', nm', t') :: fs' =>
    (a == a') && (tg == tg') && (nm == nm') && beqGo t t' && beqFields fs fs'
  | _, _ => false
termination_by fs _ => (sizeOf fs, 0)

def beqMethods : List (String × GoType) → List (String × GoType) → Bool
  | [], [] => true
  | (nm, t) :: ms, (nm', t') :: ms' => (nm == nm') && beqGo t t' && beqMethods ms ms'
  | _, _ => false
termination_by ms _ => (sizeOf ms, 0)

end

/-- Lookup in the hasher's memo table. -/
def memoGet (memo : List (GoType × Nat)) (t : GoType) : Option Nat :=
  match memo with
  | [] => none
  | (k, v) :: r => if beqGo k t then some v else memoGet r t

/-- typemap.go lines 223-230 (`Hasher.Hash`): return the memoized hash
when present, else compute `hashFor` and record it. -/
def hashMemo (memo : List (GoType × Nat)) (t : GoType) : Nat × List (GoType × Nat) :=
  match memoGet memo t with
  | some h => (h, memo)
  | none => (hashFor t, (t, hashFor t) :: memo)

/-- Well-formedness of a memo table: every recorded value is the hash
of its key.  The empty memo of `MakeHasher` satisfies it, and `Hash`
preserves it. -/
def WfMemo (memo : List (GoType × Nat)) : Prop :=
  ∀ p ∈ memo, hashFor p.1 = p.2

/-! # Theorems

## Allocator lemmas -/

theorem keys_cons (k : String) (v : Nat) (r : List (String × Nat)) :
    keys ((k, v) :: r) = k :: keys r := rfl

theorem keys_append (a b : List (String × Nat)) :
    keys (a ++ b) = keys a ++ keys b := by
  induction a with
  | nil => simp [keys]
  | cons p r ih => simp [keys, ih]

theorem mapGet_mem_keys {m : List (String × Nat)} {s : String} {i : Nat}
    (h : mapGet m s = some i) : s ∈ keys m := by
  induction m with
  | nil => simp [mapGet] at h
  | cons p r ih =>
    obtain ⟨k, v⟩ := p
    simp only [mapGet] at h
    rw [keys_cons]
    by_cases hk : k = s
    · subst hk
      exact List.mem_cons_self _ _
    · rw [if_neg hk] at h
      exact List.mem_cons_of_mem _ (ih h)

theorem keys_mapSet_of_mem {m : List (String × Nat)} {s : String} {v : Nat}
    (h : s ∈ keys m) : keys (mapSet m s v) = keys m := by
  induction m with
  | nil => simp [keys] at h
  | cons p r ih =>
    obtain ⟨k, w⟩ := p
    by_cases hk : k = s
    · subst hk
      simp [mapSet, keys_cons]
    · rw [keys_cons] at h
      rcases List.mem_cons.mp h with h1 | h1
      · exact absurd h1.symm hk
      · simp only [mapSet, if_neg hk, keys_cons, ih h1]

theorem mapGet_none_not_mem {m : List (String × Nat)} {s : String}
    (h : mapGet m s = none) : s ∉ keys m := by
  induction m with
  | nil => simp [keys]
  | cons p r ih =>
    obtain ⟨k, v⟩ := p
    simp only [mapGet] at h
    by_cases hk : k = s
    · rw [if_pos hk] at h; exact absurd h (by simp)
    · rw [if_neg hk] at h
      rw [keys_cons]
      intro hmem
      rcases List.mem_cons.mp hmem with h1 | h1
      · exact hk h1.symm
      · exact ih h h1

theorem mapSet_append_of_not_mem {m : List (String × Nat)} {s : String} {v : Nat}
    (h : mapGet m s = none) : mapSet m s v = m ++ [(s, v)] := by
  induction m with
  | nil => simp [mapSet]
  | cons p r ih =>
    obtain ⟨k, w⟩ := p
    simp only [mapGet] at h
    by_cases hk : k = s
    · rw [if_pos hk] at h; exact absurd h (by simp)
    · rw [if_neg hk] at h
      simp only [mapSet, if_neg hk, List.cons_append, ih h]

theorem nameAux_some {m : List (String × Nat)} {s : String} {i : Nat}
    (h : mapGet m s = some i) :
    nameAux m s = nameAux (mapSet m s (i + 1)) (s ++ Nat.repr i) := by
  rw [nameAux]
  split
  · rename_i i' h'
    rw [h] at h'
    cases h'
    rfl
  · rename_i h'
    rw [h] at h'
    cases h'

theorem nameAux_none {m : List (String × Nat)} {s : String}
    (h : mapGet m s = none) :
    nameAux m s = (s, mapSet m s 2) := by
  rw [nameAux]
  split
  · rename_i i' h'
    rw [h] at h'
    cases h'
  · rfl

/-- The allocator returns a name that was not occupied, occupies exactly
that one additional name, and never shortens the candidate. -/
theorem nameAux_spec (m : List (String × Nat)) (s : String) :
    (nameAux m s).1 ∉ keys m ∧
    keys (nameAux m s).2 = keys m ++ [(nameAux m s).1] ∧
    s.length ≤ (nameAux m s).1.length := by
  induction m, s using nameAux.induct with
  | case1 m s i h ih =>
    rw [nameAux_some h]
    have hmem : s ∈ keys m := mapGet_mem_keys h
    have hkeys : keys (mapSet m s (i + 1)) = keys m := keys_mapSet_of_mem hmem
    rw [hkeys] at ih
    refine ⟨ih.1, ih.2.1, ?_⟩
    refine le_trans ?_ ih.2.2
    rw [String.length_append]
    omega
  | case2 m s h =>
    rw [nameAux_none h]
    refine ⟨mapGet_none_not_mem h, ?_, le_refl _⟩
    rw [mapSet_append_of_not_mem h, keys_append]
    simp [keys]

/-- After a call to the allocator, the normalized candidate itself is
occupied (either it already was, or it is the returned name). -/
theorem wname_norm_mem (m : List (String × Nat)) (s : String) :
    normName s ∈ keys (wname m s).2 := by
  unfold wname
  cases h : mapGet m (normName s) with
  | some i =>
    have hmem : normName s ∈ keys m := mapGet_mem_keys h
    have := (nameAux_spec m (normName s)).2.1
    rw [this]
    exact List.mem_append_left _ hmem
  | none =>
    rw [nameAux_none h, mapSet_append_of_not_mem h, keys_append]
    simp [keys]

theorem allocList_keys (l : List String) (m : List (String × Nat)) :
    keys (allocList m l).2 = keys m ++ (allocList m l).1 := by
  induction l generalizing m with
  | nil => simp [allocList]
  | cons s rest ih =>
    simp only [allocList]
    rw [ih]
    have := (nameAux_spec m (normName s)).2.1
    show keys (wname m s).2 ++ _ = _
    unfold wname
    rw [this]
    simp

theorem allocList_fresh (l : List String) (m : List (String × Nat)) :
    ∀ r ∈ (allocList m l).1, r ∉ keys m := by
  induction l generalizing m with
  | nil => simp [allocList]
  | cons s rest ih =>
    intro r hr
    simp only [allocList, List.mem_cons] at hr
    rcases hr with hr | hr
    · subst hr
      exact (nameAux_spec m (normName s)).1
    · intro hmem
      have h2 := ih (wname m s).2 r hr
      apply h2
      unfold wname
      rw [(nameAux_spec m (normName s)).2.1]
      exact List.mem_append_left _ hmem

theorem allocList_nodup (l : List String) (m : List (String × Nat)) :
    (allocList m l).1.Nodup := by
  induction l generalizing m with
  | nil => simp [allocList]
  | cons s rest ih =>
    simp only [allocList, List.nodup_cons]
    refine ⟨?_, ih _⟩
    intro hmem
    have h2 := allocList_fresh rest (wname m s).2 _ hmem
    apply h2
    unfold wname
    rw [(nameAux_spec m (normName s)).2.1]
    simp

theorem allocList_seed_mem (l : List String) (m : List (String × Nat)) :
    ∀ s ∈ l, normName s ∈ keys (allocList m l).2 := by
  induction l generalizing m with
  | nil => simp
  | cons s rest ih =>
    intro s' hs'
    rcases List.mem_cons.mp hs' with h | h
    · subst h
      simp only [allocList]
      have h1 := wname_norm_mem m s'
      have h2 := allocList_keys rest (wname m s').2
      rw [h2]
      exact List.mem_append_left _ h1
    · exact ih _ s' h

/-! ## Claim C4 -/

/-- C4: within one emission session, every identifier returned by the
name allocator is distinct from every identifier it previously returned
in that session and from every name seeded at session start; an empty
or `"_"` candidate is first replaced by the default base `"x"`, and
collisions are resolved by suffixing and recursing until unique (the
definition of `nameAux`). -/
theorem writer_name_hygiene (seeds reqs : List String) :
    (allocList (allocList [] seeds).2 reqs).1.Nodup ∧
    (∀ r ∈ (allocList (allocList [] seeds).2 reqs).1, r ∉ keys (allocList [] seeds).2) ∧
    (∀ s ∈ seeds, normName s = s → s ∈ keys (allocList [] seeds).2) ∧
    (∀ m, wname m "" = wname m "x" ∧ wname m "_" = wname m "x") := by
  refine ⟨allocList_nodup _ _, allocList_fresh _ _, ?_, ?_⟩
  · intro s hs hnorm
    have := allocList_seed_mem seeds [] s hs
    rwa [hnorm] at this
  · intro m
    constructor <;> simp [wname, normName]

/-- C4 witness. -/
theorem writer_name_hygiene_witness :
    (allocList (allocList [] ["int", "true"]).2 ["v", "v", "int"]).1.Nodup ∧
    (∀ r ∈ (allocList (allocList [] ["int", "true"]).2 ["v", "v", "int"]).1,
      r ∉ keys (allocList [] ["int", "true"]).2) ∧
    (∀ s ∈ ["int", "true"], normName s = s → s ∈ keys (allocList [] ["int", "true"]).2) ∧
    (∀ m, wname m "" = wname m "x" ∧ wname m "_" = wname m "x") :=
  writer_name_hygiene ["int", "true"] ["v", "v", "int"]

/-! ## Claim C10 -/

/-- C10: the name allocator terminates on every candidate and every
allocator state — `nameAux` is total (well-founded on
`maxKeyLen m + 1 - s.length`: each recursive call strictly lengthens
the candidate while the key set stays fixed) — and the recursion
reaches a string absent from the `names` map: the returned name is not
among the occupied names, which grow by exactly that name. -/
theorem writer_name_terminates (m : List (String × Nat)) (s : String) :
    (wname m s).1 ∉ keys m ∧
    keys (wname m s).2 = keys m ++ [(wname m s).1] ∧
    (normName s).length ≤ (wname m s).1.length := by
  unfold wname
  exact nameAux_spec m (normName s)

/-! ## Claim C2 -/

/-- C2 (refuting byte-identical regeneration): `writer.imports` walks
the Go map `w.pkgNames` with `range`, whose iteration order is
unspecified and varies between runs; two iteration sequences of the
same two-entry map produce different import blocks, so two successive
generations of the same graph need not be byte-identical. -/
theorem imports_text_order_dependent :
    ([((⟨"fmt", "fmt"⟩ : GoPkg), "fmt"), (⟨"strconv", "strconv"⟩, "strconv")]).Perm
        [((⟨"strconv", "strconv"⟩ : GoPkg), "strconv"), (⟨"fmt", "fmt"⟩, "fmt")] ∧
    importsText [(⟨"fmt", "fmt"⟩, "fmt"), (⟨"strconv", "strconv"⟩, "strconv")] ≠
      importsText [(⟨"strconv", "strconv"⟩, "strconv"), (⟨"fmt", "fmt"⟩, "fmt")] := by
  constructor
  · exact List.Perm.swap _ _ _
  · decide

/-! ## Claim C1 -/

/-- C1 counterexample: on the two-node cyclic block, the older
scheduler fails, but the current writer variant (no failure path in
`order := b.nodeOrder()`) reports nothing and still emits statements;
moreover the older variant's report is the fixed string `"cyclic!"`,
identical for two different cyclic blocks, so it does not identify the
cyclic block. -/
theorem block_cyclic_counterexample :
    nodeOrderOld ⟨[1, 2], [(1, 2), (2, 1)]⟩ = none ∧
    (blockNew ⟨[1, 2], [(1, 2), (2, 1)]⟩).report = none ∧
    (blockNew ⟨[1, 2], [(1, 2), (2, 1)]⟩).stmts ≠ [] ∧
    (blockOld ⟨[1, 2], [(1, 2), (2, 1)]⟩).report =
      (blockOld ⟨[3, 4], [(3, 4), (4, 3)]⟩).report := by
  refine ⟨by decide, rfl, by decide, by decide⟩

/-- C1 (amended): in the older writer variant, when scheduling fails on
a cyclic block the block's emission prints the generic report
`"cyclic!"` (not identifying the block) and emits no statements; the
current writer variant has no failure path at all and never reports. -/
theorem block_cyclic_handling (b : Blk) (h : nodeOrderOld b = none) :
    blockOld b = { report := some "cyclic!", stmts := [] } ∧
    (∀ b' : Blk, (blockNew b').report = none) := by
  refine ⟨?_, fun b' => rfl⟩
  unfold blockOld
  rw [h]

/-- C1 witness. -/
theorem block_cyclic_handling_witness :
    blockOld ⟨[5, 6], [(5, 6), (6, 5)]⟩ = { report := some "cyclic!", stmts := [] } ∧
    (∀ b' : Blk, (blockNew b').report = none) :=
  block_cyclic_handling ⟨[5, 6], [(5, 6), (6, 5)]⟩ (by decide)

/-! ## Claim C5 -/

/-- C5 counterexample: loop.go groups `*ChanType` with nil and
`*NamedType` (loop.go line 56), so a channel-typed input removes the
second binding output rather than making it present as the claim
states. -/
theorem loop_chan_counterexample :
    loopUpdateInputType (some .chanT) 2 = 1 ∧ loopUpdateInputType (some .chanT) 1 = 1 ∧
    loopUpdateInputType (some .chanT) 2 ≠ 2 := by
  decide

/-- C5 (amended): after type recomputation, a nil, scalar/named or
channel input type leaves only one binding output, while an array,
sequence (slice) or map input type makes the second binding output
present. -/
theorem loop_binding_outputs (c : Nat) (h : c = 1 ∨ c = 2) (t : Option GuiType) :
    ((t = none ∨ t = some .namedT ∨ t = some .chanT) → loopUpdateInputType t c = 1) ∧
    ((t = some .arrayT ∨ t = some .sliceT ∨ t = some .mapT) → loopUpdateInputType t c = 2) := by
  rcases h with h | h <;> subst h <;>
    rcases t with _ | g <;> first
      | (constructor <;> intro hc <;> rcases hc with hc | hc | hc <;> simp_all [loopUpdateInputType])
      | (cases g <;> constructor <;> intro hc <;>
          rcases hc with hc | hc | hc <;> simp_all [loopUpdateInputType])

/-! ## Index node lemmas -/

/-- The four ports' values are assigned identically in every branch of
`updateInputType`; only the `ok` bookkeeping differs. -/
theorem indexUpdate_proj (st : IndexState) :
    (indexUpdate st).xType = ((indexDerived st).1).getD .generic ∧
    (indexUpdate st).keyType = ((indexDerived st).2.1).getD .generic ∧
    (indexUpdate st).eltType = ((indexDerived st).2.2.1).getD .generic ∧
    (indexUpdate st).addressable = (indexDerived st).2.2.2 := by
  by_cases hs : st.set = true
  · simp [indexUpdate, hs]
  · have hs' : st.set = false := by simp at hs; exact hs
    by_cases hm : isMapCons (((indexDerived st).1).getD .generic) = true
    · simp [indexUpdate, hs', hm]
    · have hm' : isMapCons (((indexDerived st).1).getD .generic) = false := by
        simp at hm; exact hm
      by_cases hp : st.okPresent = true
      · simp [indexUpdate, hs', hm', hp]
      · simp [indexUpdate, hs', hm', hp]

/-- `indexDerived` when the container input has a connection with a
non-nil source of type `T`. -/
theorem indexDerived_x (st : IndexState) (T : FluxType) (rest : List (Option FluxType))
    (hx : st.xConns = some T :: rest) :
    indexDerived st =
      (match unwrapNamed (indirect T).1 with
       | .array e =>
         if (indirect T).2 && !st.set then (some T, some intT, some (.pointer e), true)
         else (some (indirect T).1, some intT, some e, false)
       | .slice e =>
         if !st.set then (some (indirect T).1, some intT, some (.pointer e), true)
         else (some (indirect T).1, some intT, some e, false)
       | .map k e => (some (indirect T).1, some k, some e, false)
       | _ => (some (indirect T).1, some intT, none, false)) := by
  unfold indexDerived
  rw [hx]

theorem pointer_ne_self (e : FluxType) : FluxType.pointer e ≠ e := by
  intro h
  have := congrArg (fun t => sizeOf t) h
  simp at this

/-! ## Claim C3 -/

/-- C3: for a read-mode index node whose container resolves to an
array, pointer-to-array or slice, the value output's type is a pointer
to the element type exactly when the node's `addressable` flag is set,
and the flag is set exactly for a slice container or an array accessed
through a pointer; a write-mode index node has no value output port at
all. -/
theorem index_addressability (st : IndexState) (T e : FluxType)
    (rest : List (Option FluxType)) (hread : st.set = false)
    (hx : st.xConns = some T :: rest)
    (hshape : unwrapNamed (indirect T).1 = .array e ∨ unwrapNamed (indirect T).1 = .slice e) :
    ((indexUpdate st).eltType = .pointer e ↔ (indexUpdate st).addressable = true) ∧
    ((indexUpdate st).addressable = true ↔
      (unwrapNamed (indirect T).1 = .slice e ∨
        (unwrapNamed (indirect T).1 = .array e ∧ (indirect T).2 = true))) ∧
    (newIndexPorts true).hasOutVal = false := by
  obtain ⟨hxP, hkP, heP, haP⟩ := indexUpdate_proj st
  have hd := indexDerived_x st T rest hx
  rw [heP, haP, hd, hread]
  rcases hshape with h | h <;> rw [h] <;>
    cases hptr : (indirect T).2 <;>
      simp [hptr, newIndexPorts, pointer_ne_self, (pointer_ne_self e).symm]

/-- C3 witness. -/
theorem index_addressability_witness :
    (((indexUpdate
        { set := false, xConns := [some (.slice intT)], keyConns := [],
          inValConns := [], okPresent := false, okConns := [], blkConns := [] }).eltType =
        .pointer intT ↔
      (indexUpdate
        { set := false, xConns := [some (.slice intT)], keyConns := [],
          inValConns := [], okPresent := false, okConns := [], blkConns := [] }).addressable =
        true) ∧
    ((indexUpdate
        { set := false, xConns := [some (.slice intT)], keyConns := [],
          inValConns := [], okPresent := false, okConns := [], blkConns := [] }).addressable =
        true ↔
      (unwrapNamed (indirect (.slice intT)).1 = .slice intT ∨
        (unwrapNamed (indirect (.slice intT)).1 = .array intT ∧
          (indirect (.slice intT)).2 = true))) ∧
    (newIndexPorts true).hasOutVal = false) :=
  index_addressability
    { set := false, xConns := [some (.slice intT)], keyConns := [],
      inValConns := [], okPresent := false, okConns := [], blkConns := [] }
    (.slice intT) intT [] rfl rfl (Or.inr rfl)

/-! ## Claim C6 -/

/-- C6: after type recomputation of a read-mode index node, the `ok`
presence output exists exactly when the resolved container type is a
map type, and when it is not, the `ok` port carries no connections and
every connection previously attached to it has been removed from the
block. -/
theorem index_ok_iff_map (st : IndexState) (hread : st.set = false)
    (hwf : st.okPresent = false → st.okConns = []) :
    ((indexUpdate st).okPresent = true ↔ isMapCons (indexUpdate st).xType = true) ∧
    (isMapCons (indexUpdate st).xType = false →
      (indexUpdate st).okConns = [] ∧ ∀ c ∈ st.okConns, c ∉ (indexUpdate st).blkConns) := by
  have hx : (indexUpdate st).xType = ((indexDerived st).1).getD .generic :=
    (indexUpdate_proj st).1
  by_cases hm : isMapCons (((indexDerived st).1).getD .generic) = true
  · constructor
    · rw [hx]
      simp [indexUpdate, hread, hm]
    · intro hcon
      rw [hx, hm] at hcon
      cases hcon
  · have hm' : isMapCons (((indexDerived st).1).getD .generic) = false := by
      simp at hm; exact hm
    by_cases hp : st.okPresent = true
    · constructor
      · rw [hx]
        simp [indexUpdate, hread, hm', hp]
      · intro _
        constructor
        · simp [indexUpdate, hread, hm', hp]
        · intro c hc hmem
          simp [indexUpdate, hread, hm', hp, List.mem_filter] at hmem
          exact hmem.2 hc
    · have hp' : st.okPresent = false := by
        cases h : st.okPresent
        · rfl
        · exact absurd h hp
      constructor
      · rw [hx]
        simp [indexUpdate, hread, hm', hp']
      · intro _
        refine ⟨?_, ?_⟩
        · simp only [indexUpdate, hread, hm', hp']
          simp only [Bool.not_false, if_true, if_false]
          exact hwf hp'
        · intro c hc
          rw [hwf hp'] at hc
          cases hc

/-- C6 witness. -/
theorem index_ok_iff_map_witness :
    ((indexUpdate
        { set := false, xConns := [some (.map intT boolT)], keyConns := [],
          inValConns := [], okPresent := false, okConns := [], blkConns := [7] }).okPresent =
        true ↔
      isMapCons (indexUpdate
        { set := false, xConns := [some (.map intT boolT)], keyConns := [],
          inValConns := [], okPresent := false, okConns := [], blkConns := [7] }).xType =
        true) ∧
    (isMapCons (indexUpdate
        { set := false, xConns := [some (.map intT boolT)], keyConns := [],
          inValConns := [], okPresent := false, okConns := [], blkConns := [7] }).xType =
        false →
      (indexUpdate
        { set := false, xConns := [some (.map intT boolT)], keyConns := [],
          inValConns := [], okPresent := false, okConns := [], blkConns := [7] }).okConns =
        [] ∧
      ∀ c ∈ ([] : List Nat),
        c ∉ (indexUpdate
          { set := false, xConns := [some (.map intT boolT)], keyConns := [],
            inValConns := [], okPresent := false, okConns := [], blkConns := [7] }).blkConns) :=
  index_ok_iff_map
    { set := false, xConns := [some (.map intT boolT)], keyConns := [],
      inValConns := [], okPresent := false, okConns := [], blkConns := [7] }
    rfl (fun _ => rfl)

/-! ## Claim C7 -/

/-- C7: the index node's type recomputation is total — it is a function
defined on every configuration — and each of the three types it
assigns falls back to the wildcard `generic{}` exactly when it could
not be derived, and otherwise is exactly the derived type; no
configuration raises an error. -/
theorem index_update_wildcard (st : IndexState) :
    ((indexDerived st).1 = none → (indexUpdate st).xType = .generic) ∧
    ((indexDerived st).2.1 = none → (indexUpdate st).keyType = .generic) ∧
    ((indexDerived st).2.2.1 = none → (indexUpdate st).eltType = .generic) ∧
    (∀ T, (indexDerived st).1 = some T → (indexUpdate st).xType = T) ∧
    (∀ T, (indexDerived st).2.1 = some T → (indexUpdate st).keyType = T) ∧
    (∀ T, (indexDerived st).2.2.1 = some T → (indexUpdate st).eltType = T) := by
  obtain ⟨h1, h2, h3, _⟩ := indexUpdate_proj st
  refine ⟨?_, ?_, ?_, ?_, ?_, ?_⟩
  · intro h; rw [h1, h]; rfl
  · intro h; rw [h2, h]; rfl
  · intro h; rw [h3, h]; rfl
  · intro T h; rw [h1, h]; rfl
  · intro T h; rw [h2, h]; rfl
  · intro T h; rw [h3, h]; rfl

/-- C7 witness (a fully unconnected read-mode node: all three types
degrade to the wildcard). -/
theorem index_update_wildcard_witness :
    ((indexDerived
        { set := false, xConns := [], keyConns := [], inValConns := [],
          okPresent := false, okConns := [], blkConns := [] }).1 = none →
      (indexUpdate
        { set := false, xConns := [], keyConns := [], inValConns := [],
          okPresent := false, okConns := [], blkConns := [] }).xType = .generic) ∧
    ((indexDerived
        { set := false, xConns := [], keyConns := [], inValConns := [],
          okPresent := false, okConns := [], blkConns := [] }).2.1 = none →
      (indexUpdate
        { set := false, xConns := [], keyConns := [], inValConns := [],
          okPresent := false, okConns := [], blkConns := [] }).keyType = .generic) ∧
    ((indexDerived
        { set := false, xConns := [], keyConns := [], inValConns := [],
          okPresent := false, okConns := [], blkConns := [] }).2.2.1 = none →
      (indexUpdate
        { set := false, xConns := [], keyConns := [], inValConns := [],
          okPresent := false, okConns := [], blkConns := [] }).eltType = .generic) ∧
    (∀ T, (indexDerived
        { set := false, xConns := [], keyConns := [], inValConns := [],
          okPresent := false, okConns := [], blkConns := [] }).1 = some T →
      (indexUpdate
        { set := false, xConns := [], keyConns := [], inValConns := [],
          okPresent := false, okConns := [], blkConns := [] }).xType = T) ∧
    (∀ T, (indexDerived
        { set := false, xConns := [], keyConns := [], inValConns := [],
          okPresent := false, okConns := [], blkConns := [] }).2.1 = some T →
      (indexUpdate
        { set := false, xConns := [], keyConns := [], inValConns := [],
          okPresent := false, okConns := [], blkConns := [] }).keyType = T) ∧
    (∀ T, (indexDerived
        { set := false, xConns := [], keyConns := [], inValConns := [],
          okPresent := false, okConns := [], blkConns := [] }).2.2.1 = some T →
      (indexUpdate
        { set := false, xConns := [], keyConns := [], inValConns := [],
          okPresent := false, okConns := [], blkConns := [] }).eltType = T) :=
  index_update_wildcard
    { set := false, xConns := [], keyConns := [], inValConns := [],
      okPresent := false, okConns := [], blkConns := [] }

/-! ## Claim C8 -/

/-- C8 counterexample: the capacity input of a make node (writer.go
lines 237-239) is an unconnected input of a known type — the integer
capacity, whose underlying type is neither slice, map nor signature —
yet it receives no fresh zero-valued variable declaration: the argument
is skipped outright.  This refutes the claim's clause that an
unconnected input of any other known type receives a zero-value
declaration. -/
theorem make_capacity_counterexample :
    resolveArg none true (some intT) "v" = none ∧
    resolveArg none true (some intT) "v" ≠ some ("v", true) := by
  decide

/-- C8 (amended): during block emission a node with an unconnected
input never aborts the definition (`resolveArg` is total): an
unconnected input whose underlying type is a slice, map or function is
passed the untyped literal `nil` with no declaration; an unconnected
input of any other known type receives a fresh variable backed by a
zero-value `var` declaration — except the capacity input of a make
node, which is skipped outright with no declaration; an input with no
type has its argument skipped; and a delete or len node whose container
input is unconnected emits no statement at all. -/
theorem unconnected_input_policy (t : FluxType) (f : String) :
    (((∃ e, underlyingT t = .slice e) ∨ (∃ k e, underlyingT t = .map k e) ∨
        underlyingT t = .signature) →
      resolveArg none false (some t) f = some ("nil", false)) ∧
    ((∀ e, underlyingT t ≠ .slice e) → (∀ k e, underlyingT t ≠ .map k e) →
      underlyingT t ≠ .signature → resolveArg none false (some t) f = some (f, true)) ∧
    (∀ tOpt, resolveArg none true tOpt f = none) ∧
    (∀ mk, resolveArg none mk none f = none) ∧
    (∀ a0 a1, emitDelete false a0 a1 = []) ∧
    (∀ hr r a, emitLen hr false r a = []) := by
  refine ⟨?_, ?_, fun tOpt => rfl, ?_, fun a0 a1 => rfl, ?_⟩
  · intro h
    rcases h with ⟨e, he⟩ | ⟨k, e, he⟩ | he <;> simp [resolveArg, he]
  · intro h1 h2 h3
    cases hu : underlyingT t with
    | slice e => exact absurd hu (h1 e)
    | map k e => exact absurd hu (h2 k e)
    | signature => exact absurd hu h3
    | basic k => simp [resolveArg, hu]
    | named u => simp [resolveArg, hu]
    | pointer e => simp [resolveArg, hu]
    | array e => simp [resolveArg, hu]
    | chan e => simp [resolveArg, hu]
    | iface => simp [resolveArg, hu]
    | strct => simp [resolveArg, hu]
    | generic => simp [resolveArg, hu]
  · intro mk
    cases mk <;> rfl
  · intro hr r a
    unfold emitLen
    simp

/-- C8 witness. -/
theorem unconnected_input_policy_witness :
    (((∃ e, underlyingT (.slice intT) = .slice e) ∨
        (∃ k e, underlyingT (.slice intT) = .map k e) ∨
        underlyingT (.slice intT) = .signature) →
      resolveArg none false (some (.slice intT)) "v" = some ("nil", false)) ∧
    ((∀ e, underlyingT (.slice intT) ≠ .slice e) →
      (∀ k e, underlyingT (.slice intT) ≠ .map k e) →
      underlyingT (.slice intT) ≠ .signature →
      resolveArg none false (some (.slice intT)) "v" = some ("v", true)) ∧
    (∀ tOpt, resolveArg none true tOpt "v" = none) ∧
    (∀ mk, resolveArg none mk none "v" = none) ∧
    (∀ a0 a1, emitDelete false a0 a1 = []) ∧
    (∀ hr r a, emitLen hr false r a = []) :=
  unconnected_input_policy (.slice intT) "v"

/-- C5 witness. -/
theorem loop_binding_outputs_witness :
    (((some GuiType.mapT) = none ∨ (some GuiType.mapT) = some .namedT ∨
        (some GuiType.mapT) = some .chanT) →
      loopUpdateInputType (some .mapT) 1 = 1) ∧
    (((some GuiType.mapT) = some .arrayT ∨ (some GuiType.mapT) = some .sliceT ∨
        (some GuiType.mapT) = some .mapT) →
      loopUpdateInputType (some .mapT) 1 = 2) :=
  loop_binding_outputs 1 (Or.inl rfl) (some .mapT)

/-! ## Type hasher lemmas -/

theorem hashMethods_eq_sum (ms : List (String × GoType)) :
    hashMethods ms = (ms.map (fun m => 3 * hashString m.1 + 5 * hashFor m.2)).sum := by
  induction ms with
  | nil => simp [hashMethods]
  | cons m ms ih =>
    obtain ⟨nm, t⟩ := m
    simp [hashMethods, ih]

theorem hashMethods_perm {ms ms' : List (String × GoType)} (h : ms.Perm ms') :
    hashMethods ms = hashMethods ms' := by
  rw [hashMethods_eq_sum, hashMethods_eq_sum]
  exact (h.map _).sum_eq

theorem removeMethod_perm {nm : String} {t : GoType} :
    ∀ {ms' rest : List (String × GoType)}, removeMethod nm t ms' = some rest →
    ∃ nm' t', (nm == nm' && identical t t') = true ∧ ms'.Perm ((nm', t') :: rest) := by
  intro ms'
  induction ms' with
  | nil => intro rest h; simp [removeMethod] at h
  | cons m ms ih =>
    intro rest h
    obtain ⟨nm', t'⟩ := m
    rw [removeMethod] at h
    by_cases hc : (nm == nm' && identical t t') = true
    · rw [if_pos hc] at h
      cases h
      exact ⟨nm', t', hc, List.Perm.refl _⟩
    · rw [if_neg hc] at h
      cases hr : removeMethod nm t ms with
      | none => rw [hr] at h; simp at h
      | some r0 =>
        rw [hr] at h
        simp at h
        obtain ⟨nm2, t2, hm, hp⟩ := ih hr
        refine ⟨nm2, t2, hm, ?_⟩
        subst h
        exact (List.Perm.cons _ hp).trans (List.Perm.swap (nm2, t2) (nm', t') r0)

theorem identicalList_congr
    (ts : List GoType)
    (ih : ∀ a ∈ ts, ∀ b, identical a b = true → hashFor a = hashFor b) :
    ∀ ts', identicalList ts ts' = true →
      hashSum ts = hashSum ts' ∧ ts.length = ts'.length := by
  induction ts with
  | nil =>
    intro ts' h
    cases ts' with
    | nil => simp [hashSum]
    | cons t' ts' => simp [identicalList] at h
  | cons t ts ih2 =>
    intro ts' h
    cases ts' with
    | nil => simp [identicalList] at h
    | cons t' ts' =>
      rw [identicalList] at h
      simp only [Bool.and_eq_true] at h
      have h1 := ih t (List.mem_cons_self _ _) t' h.1
      have h2 := ih2 (fun a ha b => ih a (List.mem_cons_of_mem _ ha) b) ts' h.2
      constructor
      · simp [hashSum, h1, h2.1]
      · simp [h2.2]

theorem identicalFields_congr
    (fs : List (Bool × String × String × GoType))
    (ih : ∀ p ∈ fs, ∀ b, identical p.2.2.2 b = true → hashFor p.2.2.2 = hashFor b) :
    ∀ fs', identicalFields fs fs' = true → hashFields fs = hashFields fs' := by
  induction fs with
  | nil =>
    intro fs' h
    cases fs' with
    | nil => rfl
    | cons f' fs' =>
      obtain ⟨a', tg', nm', t'⟩ := f'
      simp [identicalFields] at h
  | cons f fs ih2 =>
    intro fs' h
    obtain ⟨a, tg, nm, t⟩ := f
    cases fs' with
    | nil => simp [identicalFields] at h
    | cons f' fs' =>
      obtain ⟨a', tg', nm', t'⟩ := f'
      rw [identicalFields] at h
      simp only [Bool.and_eq_true, beq_iff_eq] at h
      obtain ⟨⟨⟨⟨ha, htg⟩, hnm⟩, hty⟩, hrest⟩ := h
      have h1 := ih (a, tg, nm, t) (List.mem_cons_self _ _) t' hty
      have h2 := ih2 (fun p hp b => ih p (List.mem_cons_of_mem _ hp) b) fs' hrest
      simp only [hashFields]
      rw [ha, htg, hnm, h1, h2]

theorem identicalMethods_congr
    (ms : List (String × GoType))
    (ih : ∀ p ∈ ms, ∀ b, identical p.2 b = true → hashFor p.2 = hashFor b) :
    ∀ ms', identicalMethods ms ms' = true → hashMethods ms = hashMethods ms' := by
  induction ms with
  | nil =>
    intro ms' h
    rw [identicalMethods] at h
    have : ms' = [] := by
      cases ms' with
      | nil => rfl
      | cons m ms' => simp at h
    subst this
    rfl
  | cons m ms ih2 =>
    obtain ⟨nm, t⟩ := m
    intro ms' h
    rw [identicalMethods] at h
    cases hr : removeMethod nm t ms' with
    | none => rw [hr] at h; simp at h
    | some rest =>
      rw [hr] at h
      obtain ⟨nm2, t2, hm, hp⟩ := removeMethod_perm hr
      simp only [Bool.and_eq_true, beq_iff_eq] at hm
      have hperm := hashMethods_perm hp
      have hfix : hashFor t = hashFor t2 := ih (nm, t) (List.mem_cons_self _ _) t2 hm.2
      have hrest : hashMethods ms = hashMethods rest :=
        ih2 (fun p hp2 b => ih p (List.mem_cons_of_mem _ hp2) b) rest h
      rw [hperm]
      simp only [hashMethods]
      rw [hm.1, hfix, hrest]

theorem hashFor_congr : ∀ (t t' : GoType), identical t t' = true → hashFor t = hashFor t' := by
  have main : ∀ (n : Nat) (t t' : GoType), sizeOf t ≤ n →
      identical t t' = true → hashFor t = hashFor t' := by
    intro n
    induction n with
    | zero =>
      intro t t' hle hid
      exfalso
      cases t <;> simp at hle
    | succ n ih =>
      intro t t' hle hid
      cases t with
      | basic k =>
        cases t' <;> simp [identical] at hid
        subst hid
        rfl
      | array len e =>
        cases t' <;> simp [identical] at hid
        rename_i len' e'
        obtain ⟨h1, h2⟩ := hid
        subst h1
        have hs : sizeOf e ≤ n := by simp at hle; omega
        simp only [hashFor]
        rw [ih e e' hs h2]
      | slice e =>
        cases t' <;> simp [identical] at hid
        rename_i e'
        have hs : sizeOf e ≤ n := by simp at hle; omega
        simp only [hashFor]
        rw [ih e e' hs hid]
      | pointer e =>
        cases t' <;> simp [identical] at hid
        rename_i e'
        have hs : sizeOf e ≤ n := by simp at hle; omega
        simp only [hashFor]
        rw [ih e e' hs hid]
      | mapT k e =>
        cases t' <;> simp [identical] at hid
        rename_i k' e'
        obtain ⟨h1, h2⟩ := hid
        have hs1 : sizeOf k ≤ n := by simp at hle; omega
        have hs2 : sizeOf e ≤ n := by simp at hle; omega
        simp only [hashFor]
        rw [ih k k' hs1 h1, ih e e' hs2 h2]
      | chanT d e =>
        cases t' <;> simp [identical] at hid
        rename_i d' e'
        obtain ⟨h1, h2⟩ := hid
        subst h1
        have hs : sizeOf e ≤ n := by simp at hle; omega
        simp only [hashFor]
        rw [ih e e' hs h2]
      | named o =>
        cases t' <;> simp [identical] at hid
        subst hid
        rfl
      | tuple ts =>
        cases t' <;> simp [identical] at hid
        rename_i ts'
        have hts : sizeOf ts ≤ n := by simp at hle; omega
        have ihl : ∀ a ∈ ts, ∀ b, identical a b = true → hashFor a = hashFor b := by
          intro a ha b hb
          have := List.sizeOf_lt_of_mem ha
          exact ih a b (by omega) hb
        obtain ⟨hsum, hlen⟩ := identicalList_congr ts ihl ts' hid
        simp only [hashFor, hashTupleN]
        rw [hsum, hlen]
      | strct fs =>
        cases t' <;> simp [identical] at hid
        rename_i fs'
        have hfs : sizeOf fs ≤ n := by simp at hle; omega
        have ihf : ∀ p ∈ fs, ∀ b, identical p.2.2.2 b = true → hashFor p.2.2.2 = hashFor b := by
          intro p hp b hb
          have h1 := List.sizeOf_lt_of_mem hp
          obtain ⟨a, tg, nm, t0⟩ := p
          simp at h1
          exact ih t0 b (by omega) hb
        have := identicalFields_congr fs ihf fs' hid
        simp only [hashFor]
        rw [this]
      | iface ms =>
        cases t' <;> simp [identical] at hid
        rename_i ms'
        have hms : sizeOf ms ≤ n := by simp at hle; omega
        have ihm : ∀ p ∈ ms, ∀ b, identical p.2 b = true → hashFor p.2 = hashFor b := by
          intro p hp b hb
          have h1 := List.sizeOf_lt_of_mem hp
          obtain ⟨nm, t0⟩ := p
          simp at h1
          exact ih t0 b (by omega) hb
        have := identicalMethods_congr ms ihm ms' hid
        simp only [hashFor]
        rw [this]
      | signature v ps rs =>
        cases t' <;> simp [identical] at hid
        rename_i v' ps' rs'
        obtain ⟨⟨h1, h2⟩, h3⟩ := hid
        subst h1
        have hps : sizeOf ps ≤ n := by simp at hle; omega
        have hrs : sizeOf rs ≤ n := by simp at hle; omega
        have ihp : ∀ a ∈ ps, ∀ b, identical a b = true → hashFor a = hashFor b := by
          intro a ha b hb
          have := List.sizeOf_lt_of_mem ha
          exact ih a b (by omega) hb
        have ihr : ∀ a ∈ rs, ∀ b, identical a b = true → hashFor a = hashFor b := by
          intro a ha b hb
          have := List.sizeOf_lt_of_mem ha
          exact ih a b (by omega) hb
        obtain ⟨hsump, hlenp⟩ := identicalList_congr ps ihp ps' h2
        obtain ⟨hsumr, hlenr⟩ := identicalList_congr rs ihr rs' h3
        simp only [hashFor, hashTupleN]
        rw [hsump, hlenp, hsumr, hlenr]
  intro t t' hid
  exact main (sizeOf t) t t' (le_refl _) hid


theorem beqList_sound_aux
    (ts : List GoType) (ih : ∀ a ∈ ts, ∀ b, beqGo a b = true → a = b) :
    ∀ ts', beqList ts ts' = true → ts = ts' := by
  induction ts with
  | nil =>
    intro ts' h
    cases ts' with
    | nil => rfl
    | cons t' ts' => simp [beqList] at h
  | cons t ts ih2 =>
    intro ts' h
    cases ts' with
    | nil => simp [beqList] at h
    | cons t' ts' =>
      rw [beqList] at h
      simp only [Bool.and_eq_true] at h
      have h1 := ih t (List.mem_cons_self _ _) t' h.1
      have h2 := ih2 (fun a ha b => ih a (List.mem_cons_of_mem _ ha) b) ts' h.2
      rw [h1, h2]

theorem beqFields_sound_aux
    (fs : List (Bool × String × String × GoType))
    (ih : ∀ p ∈ fs, ∀ b, beqGo p.2.2.2 b = true → p.2.2.2 = b) :
    ∀ fs', beqFields fs fs' = true → fs = fs' := by
  induction fs with
  | nil =>
    intro fs' h
    cases fs' with
    | nil => rfl
    | cons f' fs' =>
      obtain ⟨a', tg', nm', t'⟩ := f'
      simp [beqFields] at h
  | cons f fs ih2 =>
    intro fs' h
    obtain ⟨a, tg, nm, t⟩ := f
    cases fs' with
    | nil => simp [beqFields] at h
    | cons f' fs' =>
      obtain ⟨a', tg', nm', t'⟩ := f'
      rw [beqFields] at h
      simp only [Bool.and_eq_true, beq_iff_eq] at h
      obtain ⟨⟨⟨⟨ha, htg⟩, hnm⟩, hty⟩, hrest⟩ := h
      have h1 := ih (a, tg, nm, t) (List.mem_cons_self _ _) t' hty
      have h2 := ih2 (fun p hp b => ih p (List.mem_cons_of_mem _ hp) b) fs' hrest
      simp only at h1
      rw [ha, htg, hnm, h1, h2]

theorem beqMethods_sound_aux
    (ms : List (String × GoType))
    (ih : ∀ p ∈ ms, ∀ b, beqGo p.2 b = true → p.2 = b) :
    ∀ ms', beqMethods ms ms' = true → ms = ms' := by
  induction ms with
  | nil =>
    intro ms' h
    cases ms' with
    | nil => rfl
    | cons m' ms' =>
      obtain ⟨nm', t'⟩ := m'
      simp [beqMethods] at h
  | cons m ms ih2 =>
    intro ms' h
    obtain ⟨nm, t⟩ := m
    cases ms' with
    | nil => simp [beqMethods] at h
    | cons m' ms' =>
      obtain ⟨nm', t'⟩ := m'
      rw [beqMethods] at h
      simp only [Bool.and_eq_true, beq_iff_eq] at h
      obtain ⟨⟨hnm, hty⟩, hrest⟩ := h
      have h1 := ih (nm, t) (List.mem_cons_self _ _) t' hty
      have h2 := ih2 (fun p hp b => ih p (List.mem_cons_of_mem _ hp) b) ms' hrest
      simp only at h1
      rw [hnm, h1, h2]

theorem beqGo_sound : ∀ (a b : GoType), beqGo a b = true → a = b := by
  have main : ∀ (n : Nat) (a b : GoType), sizeOf a ≤ n → beqGo a b = true → a = b := by
    intro n
    induction n with
    | zero =>
      intro a b hle hab
      exfalso
      cases a <;> simp at hle
    | succ n ih =>
      intro a b hle hab
      cases a with
      | basic k =>
        cases b <;> simp [beqGo] at hab
        rw [hab]
      | array len e =>
        cases b <;> simp [beqGo] at hab
        rename_i len' e'
        obtain ⟨h1, h2⟩ := hab
        have hs : sizeOf e ≤ n := by simp at hle; omega
        rw [h1, ih e e' hs h2]
      | slice e =>
        cases b <;> simp [beqGo] at hab
        rename_i e'
        have hs : sizeOf e ≤ n := by simp at hle; omega
        rw [ih e e' hs hab]
      | pointer e =>
        cases b <;> simp [beqGo] at hab
        rename_i e'
        have hs : sizeOf e ≤ n := by simp at hle; omega
        rw [ih e e' hs hab]
      | mapT k e =>
        cases b <;> simp [beqGo] at hab
        rename_i k' e'
        obtain ⟨h1, h2⟩ := hab
        have hs1 : sizeOf k ≤ n := by simp at hle; omega
        have hs2 : sizeOf e ≤ n := by simp at hle; omega
        rw [ih k k' hs1 h1, ih e e' hs2 h2]
      | chanT d e =>
        cases b <;> simp [beqGo] at hab
        rename_i d' e'
        obtain ⟨h1, h2⟩ := hab
        have hs : sizeOf e ≤ n := by simp at hle; omega
        rw [h1, ih e e' hs h2]
      | named o =>
        cases b <;> simp [beqGo] at hab
        rw [hab]
      | tuple ts =>
        cases b <;> simp [beqGo] at hab
        rename_i ts'
        have ihl : ∀ a ∈ ts, ∀ b, beqGo a b = true → a = b := by
          intro a ha b hb
          have := List.sizeOf_lt_of_mem ha
          have hts : sizeOf ts ≤ n := by simp at hle; omega
          exact ih a b (by omega) hb
        rw [beqList_sound_aux ts ihl ts' hab]
      | strct fs =>
        cases b <;> simp [beqGo] at hab
        rename_i fs'
        have ihf : ∀ p ∈ fs, ∀ b, beqGo p.2.2.2 b = true → p.2.2.2 = b := by
          intro p hp b hb
          have h1 := List.sizeOf_lt_of_mem hp
          obtain ⟨a0, tg, nm, t0⟩ := p
          simp at h1
          have hfs : sizeOf fs ≤ n := by simp at hle; omega
          exact ih t0 b (by omega) hb
        rw [beqFields_sound_aux fs ihf fs' hab]
      | iface ms =>
        cases b <;> simp [beqGo] at hab
        rename_i ms'
        have ihm : ∀ p ∈ ms, ∀ b, beqGo p.2 b = true → p.2 = b := by
          intro p hp b hb
          have h1 := List.sizeOf_lt_of_mem hp
          obtain ⟨nm, t0⟩ := p
          simp at h1
          have hms : sizeOf ms ≤ n := by simp at hle; omega
          exact ih t0 b (by omega) hb
        rw [beqMethods_sound_aux ms ihm ms' hab]
      | signature v ps rs =>
        cases b <;> simp [beqGo] at hab
        rename_i v' ps' rs'
        obtain ⟨⟨h1, h2⟩, h3⟩ := hab
        have ihp : ∀ a ∈ ps, ∀ b, beqGo a b = true → a = b := by
          intro a ha b hb
          have := List.sizeOf_lt_of_mem ha
          have hps : sizeOf ps ≤ n := by simp at hle; omega
          exact ih a b (by omega) hb
        have ihr : ∀ a ∈ rs, ∀ b, beqGo a b = true → a = b := by
          intro a ha b hb
          have := List.sizeOf_lt_of_mem ha
          have hrs : sizeOf rs ≤ n := by simp at hle; omega
          exact ih a b (by omega) hb
        rw [h1, beqList_sound_aux ps ihp ps' h2, beqList_sound_aux rs ihr rs' h3]
  intro a b hab
  exact main (sizeOf a) a b (le_refl _) hab

theorem memoGet_some :
    ∀ {memo : List (GoType × Nat)} {t : GoType} {v : Nat}, memoGet memo t = some v →
    ∃ k, (k, v) ∈ memo ∧ beqGo k t = true := by
  intro memo
  induction memo with
  | nil => intro t v h; simp [memoGet] at h
  | cons p r ih =>
    intro t v h
    obtain ⟨k, w⟩ := p
    rw [memoGet] at h
    by_cases hb : beqGo k t = true
    · rw [if_pos hb] at h
      cases h
      exact ⟨k, List.mem_cons_self _ _, hb⟩
    · rw [if_neg hb] at h
      obtain ⟨k', hmem, hbeq⟩ := ih h
      exact ⟨k', List.mem_cons_of_mem _ hmem, hbeq⟩

theorem hashMemo_val {memo : List (GoType × Nat)} {t : GoType} (hwf : WfMemo memo) :
    (hashMemo memo t).1 = hashFor t := by
  unfold hashMemo
  cases h : memoGet memo t with
  | some v =>
    obtain ⟨k, hmem, hbeq⟩ := memoGet_some h
    have hk : k = t := beqGo_sound k t hbeq
    have := hwf (k, v) hmem
    simp only at this
    subst hk
    simp [this.symm]
  | none => rfl

theorem hashMemo_wf {memo : List (GoType × Nat)} {t : GoType} (hwf : WfMemo memo) :
    WfMemo (hashMemo memo t).2 := by
  unfold hashMemo
  cases h : memoGet memo t with
  | some v => exact hwf
  | none =>
    intro p hp
    rcases List.mem_cons.mp hp with h1 | h1
    · subst h1; rfl
    · exact hwf p h1

/-! ## Claim C9 -/

/-- C9: the hasher is consistent with type identity — identical types
hash equal, both for the raw `hashFor` computation and through the
memoizing `Hash` (under the invariant, established by `MakeHasher` and
preserved by `Hash`, that the memo records only computed hashes) — and
repeated calls of `Hash` on the same type return the same value. -/
theorem hash_respects_identity (t t' : GoType) (memo : List (GoType × Nat))
    (hwf : WfMemo memo) (hid : identical t t' = true) :
    (hashMemo memo t).1 = (hashMemo memo t').1 ∧
    (hashMemo (hashMemo memo t).2 t).1 = (hashMemo memo t).1 ∧
    WfMemo (hashMemo memo t).2 ∧
    hashFor t = hashFor t' := by
  have h1 := hashMemo_val (t := t) hwf
  have h2 := hashMemo_val (t := t') hwf
  have h3 := hashMemo_wf (t := t) hwf
  have h4 := hashFor_congr t t' hid
  have h5 := hashMemo_val (t := t) h3
  exact ⟨by rw [h1, h2, h4], by rw [h5, h1], h3, h4⟩

/-- C9 witness. -/
theorem hash_respects_identity_witness :
    (hashMemo [] (.mapT (.basic 17) (.slice (.basic 19)))).1 =
      (hashMemo [] (.mapT (.basic 17) (.slice (.basic 19)))).1 ∧
    (hashMemo (hashMemo [] (.mapT (.basic 17) (.slice (.basic 19)))).2
        (.mapT (.basic 17) (.slice (.basic 19)))).1 =
      (hashMemo [] (.mapT (.basic 17) (.slice (.basic 19)))).1 ∧
    WfMemo (hashMemo [] (.mapT (.basic 17) (.slice (.basic 19)))).2 ∧
    hashFor (.mapT (.basic 17) (.slice (.basic 19))) =
      hashFor (.mapT (.basic 17) (.slice (.basic 19))) :=
  hash_respects_identity (.mapT (.basic 17) (.slice (.basic 19)))
    (.mapT (.basic 17) (.slice (.basic 19))) []
    (by intro p hp; cases hp)
    (by simp [identical])

end Flux

